import Mathlib

/-!
Verification development for the BFS single-node ledger core
(`src/lib.rs`): content-addressed transactions, proof-of-work blocks,
and a linear chain with append and whole-chain validation.

Modelling conventions:
* Machine integers (`u64`, `u32`, `usize`) are `Nat`; where the source
  performs a truncating cast (`len() as u32`) we take the remainder by
  `2 ^ 32` explicitly.  The mining nonce is compared against
  `u64::MAX` before being incremented in the source, so it never
  overflows and plain `Nat` successor is faithful.
* The blake3 digest pipeline `hex::encode(blake3(bytes))` is modelled
  by an abstract function `H : List Nat → String` over the byte stream
  fed to the hasher; every theorem quantifies over `H`, so what is
  proved holds for the real hash as a special case.  The byte stream
  itself (field order, encodings, which fields are included) is
  modelled exactly.
* `DateTime<Utc>` values are represented by their RFC3339 rendering
  (a `String`), which is how they enter every hash; each call of
  `Utc::now()` becomes an explicit `String` argument (or a
  `clock : Nat → String` stream for the restarts inside mining).
* `Block::mine_block` is an unbounded search loop in the source; it is
  modelled with explicit fuel, `none` meaning the loop has not yet
  returned.
* Rust `panic!` (for example from string slicing in the `Display`
  implementations) is modelled by `Option`, `none` being a panic.
-/

set_option maxRecDepth 10000

namespace BFS

/-- UTF-8 encoding of one character, as the list of its byte values
(models Rust `str::as_bytes` character by character). -/
def utf8Bytes (c : Char) : List Nat :=
  let n := c.toNat
  if n < 128 then [n]
  else if n < 2048 then [192 + n / 64, 128 + n % 64]
  else if n < 65536 then [224 + n / 4096, 128 + n / 64 % 64, 128 + n % 64]
  else [240 + n / 262144, 128 + n / 4096 % 64, 128 + n / 64 % 64, 128 + n % 64]

/-- Byte stream of a string (Rust `as_bytes`, UTF-8). -/
def strBytes (s : String) : List Nat :=
  (s.data.map utf8Bytes).flatten

/-- Little-endian 8-byte rendering of a `u64` (Rust `u64::to_le_bytes`). -/
def u64le (n : Nat) : List Nat :=
  (List.range 8).map fun i => n / 256 ^ i % 256

/-- Little-endian 4-byte rendering of a `u32` (Rust `u32::to_le_bytes`). -/
def u32le (n : Nat) : List Nat :=
  (List.range 4).map fun i => n / 256 ^ i % 256

/-- Modulus for the truncating `usize as u32` cast. -/
def U32MOD : Nat := 2 ^ 32

/-- Value of `u64::MAX`, the overflow guard tested inside the mining loop. -/
def U64MAX : Nat := 2 ^ 64 - 1

/-- Incremental hasher state: `blake3::Hasher` accumulates the
concatenation of all `update` inputs. -/
structure Hasher where
  data : List Nat
deriving DecidableEq

/-- Fresh hasher (`Hasher::new`). -/
def Hasher.new : Hasher := ⟨[]⟩

/-- Feed bytes (`Hasher::update` concatenates onto the stream). -/
def Hasher.update (h : Hasher) (bytes : List Nat) : Hasher :=
  ⟨h.data ++ bytes⟩

/-- Finalize and hex-encode (`hex::encode(hasher.finalize())`), via the
abstract digest function `H`. -/
def Hasher.finalizeHex (H : List Nat → String) (h : Hasher) : String :=
  H h.data

/-- Fixed transaction fee (`TRANSACTION_FEE` in the source). -/
def TRANSACTION_FEE : Nat := 1000000

/-- Mirror of `struct Transaction`; `timestamp` is the RFC3339 string. -/
structure Transaction where
  txn_id : String
  «from» : String
  «to» : String
  amount : Nat
  fee : Nat
  nonce : Nat
  timestamp : String
  signature : String
deriving DecidableEq

/-- Mirror of `Transaction::calculate_hash`: hash of from, to, amount,
fee, nonce, timestamp — `txn_id` and `signature` are not fed in. -/
def Transaction.calculate_hash (H : List Nat → String) (tx : Transaction) : String :=
  let hasher := Hasher.new
  let hasher := hasher.update (strBytes tx.«from»)
  let hasher := hasher.update (strBytes tx.«to»)
  let hasher := hasher.update (u64le tx.amount)
  let hasher := hasher.update (u64le tx.fee)
  let hasher := hasher.update (u64le tx.nonce)
  let hasher := hasher.update (strBytes tx.timestamp)
  hasher.finalizeHex H

/-- Mirror of `Transaction::new`; `now` is the `Utc::now()` sample. -/
def Transaction.new (H : List Nat → String) («from» «to» : String) (amount nonce : Nat)
    (signature : String) (now : String) : Transaction :=
  let tx : Transaction :=
    { txn_id := ""
      «from» := «from»
      «to» := «to»
      amount := amount
      fee := TRANSACTION_FEE
      nonce := nonce
      timestamp := now
      signature := signature }
  { tx with txn_id := tx.calculate_hash H }

/-- Mirror of `Transaction::get_signing_message`: decimal/RFC3339 text
concatenation of the six content fields. -/
def Transaction.get_signing_message (tx : Transaction) : String :=
  tx.«from» ++ tx.«to» ++ toString tx.amount ++ toString tx.fee ++ toString tx.nonce ++ tx.timestamp

/-- Error cases of `hex::decode`. -/
inductive HexError
  | oddLength
  | invalidHexCharacter
deriving DecidableEq

/-- Value of one hexadecimal digit byte, `none` for a non-hex byte. -/
def hexDigitVal (b : Nat) : Option Nat :=
  if 48 ≤ b ∧ b ≤ 57 then some (b - 48)
  else if 97 ≤ b ∧ b ≤ 102 then some (b - 87)
  else if 65 ≤ b ∧ b ≤ 70 then some (b - 55)
  else none

/-- Decode an even-length byte list of hex digits two at a time. -/
def hexDecodePairs : List Nat → Except HexError (List Nat)
  | [] => Except.ok []
  | [_] => Except.error HexError.oddLength
  | b1 :: b2 :: rest =>
    match hexDigitVal b1, hexDigitVal b2, hexDecodePairs rest with
    | some hi, some lo, Except.ok bs => Except.ok ((16 * hi + lo) :: bs)
    | none, _, _ => Except.error HexError.invalidHexCharacter
    | some _, none, _ => Except.error HexError.invalidHexCharacter
    | some _, some _, Except.error e => Except.error e

/-- Mirror of `hex::decode`: odd byte length is rejected first, then
each pair of hex digits yields one byte. -/
def hexDecode (s : String) : Except HexError (List Nat) :=
  let bs := strBytes s
  if bs.length % 2 ≠ 0 then Except.error HexError.oddLength
  else hexDecodePairs bs

/-- Mirror of `Transaction::verify_signature`.  The ed25519 primitive
`VerifyingKey::verify` is abstracted as `verify pk message sig`; the
control flow around it (hex decode propagation by `?`, the 64-byte
length gate returning `Ok(false)`, verification failure returning
`Ok(false)`) is modelled exactly. -/
def Transaction.verify_signature (verify : List Nat → List Nat → List Nat → Bool)
    (pk : List Nat) (tx : Transaction) : Except HexError Bool :=
  match hexDecode tx.signature with
  | Except.error e => Except.error e
  | Except.ok signature_bytes =>
    if signature_bytes.length ≠ 64 then Except.ok false
    else Except.ok (verify pk (strBytes tx.get_signing_message) signature_bytes)

/-- Mirror of `struct BlockHeader`; `timestamp` is the RFC3339 string. -/
structure BlockHeader where
  block_height : Nat
  parent_hash : String
  merkle_root : String
  timestamp : String
  difficulty : Nat
  nonce : Nat
deriving DecidableEq

/-- Mirror of `BlockHeader::new`: nonce starts at 0, timestamp is the
`Utc::now()` sample `now`. -/
def BlockHeader.new (block_height : Nat) (parent_hash merkle_root : String)
    (difficulty : Nat) (now : String) : BlockHeader :=
  { block_height := block_height
    parent_hash := parent_hash
    merkle_root := merkle_root
    timestamp := now
    difficulty := difficulty
    nonce := 0 }

/-- Mirror of `BlockHeader::calculate_hash`: digest of height, parent
hash, merkle root, timestamp, difficulty, nonce in that order. -/
def BlockHeader.calculate_hash (H : List Nat → String) (h : BlockHeader) : String :=
  let hasher := Hasher.new
  let hasher := hasher.update (u64le h.block_height)
  let hasher := hasher.update (strBytes h.parent_hash)
  let hasher := hasher.update (strBytes h.merkle_root)
  let hasher := hasher.update (strBytes h.timestamp)
  let hasher := hasher.update (u32le h.difficulty)
  let hasher := hasher.update (u64le h.nonce)
  hasher.finalizeHex H

/-- Number of leading ASCII zero characters of a string (the
`take_while` count in `meets_difficulty_target`). -/
def leadingZeroCount (s : String) : Nat :=
  (s.data.takeWhile (fun c => c == '0')).length

/-- Mirror of `BlockHeader::meets_difficulty_target`. -/
def BlockHeader.meets_difficulty_target (H : List Nat → String) (h : BlockHeader) : Bool :=
  decide (h.difficulty ≤ leadingZeroCount (h.calculate_hash H))

/-- Mirror of `struct Block`. -/
structure Block where
  header : BlockHeader
  transaction_count : Nat
  transactions : List Transaction
deriving DecidableEq

/-- Mirror of `Block::calculate_merkle_root`: the all-zero sentinel for
an empty list, otherwise one digest of the concatenated `txn_id`s. -/
def Block.calculate_merkle_root (H : List Nat → String) (transactions : List Transaction) : String :=
  if transactions.isEmpty then String.mk (List.replicate 64 '0')
  else
    (transactions.foldl (fun h tx => h.update (strBytes tx.txn_id)) Hasher.new).finalizeHex H

/-- Mirror of `Block::new`; `transaction_count` is the truncating
`len() as u32` cast. -/
def Block.new (H : List Nat → String) (block_height : Nat) (parent_hash : String)
    (transactions : List Transaction) (difficulty : Nat) (now : String) : Block :=
  { header := BlockHeader.new block_height parent_hash
      (Block.calculate_merkle_root H transactions) difficulty now
    transaction_count := transactions.length % U32MOD
    transactions := transactions }

/-- Mirror of `Block::calculate_hash` (delegates to the header). -/
def Block.calculate_hash (H : List Nat → String) (b : Block) : String :=
  b.header.calculate_hash H

/-- Mirror of the `Block::mine_block` loop, with explicit fuel (the
source loop is unbounded; `none` means it has not returned yet).
`clock t` is the value of the `t`-th `Utc::now()` call made on nonce
exhaustion; the nonce is compared with `u64::MAX` before incrementing,
exactly as in the source. -/
def Block.mine_block (H : List Nat → String) (clock : Nat → String) :
    Nat → Nat → Block → Option (Block × String)
  | _, 0, _ => none
  | t, fuel + 1, b =>
    if b.header.meets_difficulty_target H then some (b, b.calculate_hash H)
    else if b.header.nonce = U64MAX then
      Block.mine_block H clock (t + 1) fuel
        { b with header := { b.header with timestamp := clock t, nonce := 0 } }
    else
      Block.mine_block H clock t fuel
        { b with header := { b.header with nonce := b.header.nonce + 1 } }

/-- Mirror of `struct Blockchain` (the `VecDeque` chain as a list,
front first). -/
structure Blockchain where
  chain : List Block
  pending_transactions : List Transaction
  difficulty : Nat
deriving DecidableEq

/-- Genesis parent hash sentinel: 64 ASCII zero characters. -/
def zeros64 : String := String.mk (List.replicate 64 '0')

/-- Mirror of `Blockchain::new`: build the genesis block (all-zero
parent, no transactions) and mine it before returning; `none` when the
genesis mining loop has not returned within the fuel. -/
def Blockchain.new (H : List Nat → String) (now : String) (clock : Nat → String)
    (fuel : Nat) (difficulty : Nat) : Option Blockchain :=
  match (Block.new H 0 zeros64 [] difficulty now).mine_block H clock 0 fuel with
  | none => none
  | some (mined, _) =>
    some { chain := [mined], pending_transactions := [], difficulty := difficulty }

/-- Mirror of `Blockchain::get_latest_block` (`VecDeque::back`). -/
def Blockchain.get_latest_block (bc : Blockchain) : Option Block :=
  bc.chain.getLast?

/-- Mirror of `Blockchain::add_transaction` (push onto the pool). -/
def Blockchain.add_transaction (bc : Blockchain) (transaction : Transaction) : Blockchain :=
  { bc with pending_transactions := bc.pending_transactions ++ [transaction] }

/-- Mirror of `Blockchain::mine_pending_transactions`.  The returned
pair is (state after the call, returned `Result`); `none` means the
inner mining loop has not returned within the fuel (in the source the
call is still blocked at that point, so no post-state exists). -/
def Blockchain.mine_pending_transactions (H : List Nat → String) (now : String)
    (clock : Nat → String) (fuel : Nat) (bc : Blockchain) :
    Option (Blockchain × Except String String) :=
  if bc.pending_transactions.isEmpty then
    some (bc, Except.error "No pending transactions to mine")
  else
    match bc.get_latest_block with
    | none => some (bc, Except.error "No blocks in chain")
    | some latest_block =>
      match (Block.new H (latest_block.header.block_height + 1)
          (latest_block.calculate_hash H) bc.pending_transactions bc.difficulty now).mine_block
          H clock 0 fuel with
      | none => none
      | some (mined, block_hash) =>
        some ({ bc with chain := bc.chain ++ [mined], pending_transactions := [] },
          Except.ok block_hash)

/-- Mirror of `Blockchain::get_stats`. -/
def Blockchain.get_stats (bc : Blockchain) : Nat × Nat × Nat :=
  (bc.chain.length, bc.pending_transactions.length, bc.difficulty)

/-- Body of the `is_chain_valid` loop: walk the chain comparing each
block's `parent_hash` with the recomputed hash of its predecessor and
checking the difficulty target, with early `false` returns. -/
def chainValidFrom (H : List Nat → String) : Block → List Block → Bool
  | _, [] => true
  | prev, b :: rest =>
    if b.header.parent_hash = prev.calculate_hash H then
      if b.header.meets_difficulty_target H then chainValidFrom H b rest
      else false
    else false

/-- Mirror of `Blockchain::is_chain_valid` (loop from index 1). -/
def Blockchain.is_chain_valid (H : List Nat → String) (bc : Blockchain) : Bool :=
  match bc.chain with
  | [] => true
  | b :: rest => chainValidFrom H b rest

/-- Mirror of `Blockchain::chain_length`. -/
def Blockchain.chain_length (bc : Blockchain) : Nat :=
  bc.chain.length

/-- Mirror of `Blockchain::pending_count`. -/
def Blockchain.pending_count (bc : Blockchain) : Nat :=
  bc.pending_transactions.length

/-- Mirror of `Blockchain::get_difficulty`. -/
def Blockchain.get_difficulty (bc : Blockchain) : Nat :=
  bc.difficulty

/-- Whether byte offset `n` is a character boundary of the byte stream
`bs` (Rust slice indexing panics off a boundary). -/
def isCharBoundary (bs : List Nat) (n : Nat) : Bool :=
  n == bs.length || decide (bs.getD n 0 < 128) || decide (192 ≤ bs.getD n 0)

/-- Rust byte slice `&s[..n]`: `none` models the panic when `n` is past
the end of the string or not a character boundary. -/
def rustStrTake (s : String) (n : Nat) : Option (List Nat) :=
  let bs := strBytes s
  if n ≤ bs.length ∧ isCharBoundary bs n then some (bs.take n) else none

/-- Decode a byte list back to text (ASCII range, used only to build
display strings). -/
def asciiString (bs : List Nat) : String :=
  String.mk (bs.map Char.ofNat)

/-- Mirror of `impl fmt::Display for Transaction`: slices the first
8 bytes of `txn_id`, `from` and `to`; a slice out of range is a panic
(`none`).  The argument expressions of `write!` are evaluated in
source order. -/
def Transaction.display (tx : Transaction) : Option String :=
  (rustStrTake tx.txn_id 8).bind fun idp =>
  (rustStrTake tx.«from» 8).bind fun fromp =>
  (rustStrTake tx.«to» 8).bind fun top =>
  some ("Transaction \x7b ID: " ++ asciiString idp ++ ", From: " ++ asciiString fromp ++
    "..., To: " ++ asciiString top ++ "..., Amount: " ++ toString tx.amount ++
    ", Fee: " ++ toString tx.fee ++ ", Nonce: " ++ toString tx.nonce ++ " \x7d")

/-- Mirror of `impl fmt::Display for Block`: slices the first 16 bytes
of the recomputed block hash. -/
def Block.display (H : List Nat → String) (b : Block) : Option String :=
  (rustStrTake (b.calculate_hash H) 16).bind fun hashp =>
  some ("Block \x7b Height: " ++ toString b.header.block_height ++
    ", Hash: " ++ asciiString hashp ++
    ", Transactions: " ++ toString b.transaction_count ++
    ", Difficulty: " ++ toString b.header.difficulty ++
    ", Nonce: " ++ toString b.header.nonce ++ " \x7d")

/-- States of a `Blockchain` value obtainable through the public API:
a successful `new`, then any sequence of `add_transaction` and
(returning) `mine_pending_transactions` calls, with arbitrary digest
inputs and clock samples. -/
inductive Reachable (H : List Nat → String) : Blockchain → Prop
  | new (now : String) (clock : Nat → String) (fuel : Nat) (difficulty : Nat)
      (bc : Blockchain) :
      Blockchain.new H now clock fuel difficulty = some bc → Reachable H bc
  | add {bc : Blockchain} (tx : Transaction) :
      Reachable H bc → Reachable H (bc.add_transaction tx)
  | mine {bc bc' : Blockchain} {r : Except String String}
      (now : String) (clock : Nat → String) (fuel : Nat) :
      Reachable H bc →
      bc.mine_pending_transactions H now clock fuel = some (bc', r) →
      Reachable H bc'

/-- Trace relation counting successful mining calls: `MinedK H bc k bc'`
holds when `bc'` arises from `bc` by interleaved submissions and
exactly `k` `mine_pending_transactions` calls that returned `Ok`. -/
inductive MinedK (H : List Nat → String) : Blockchain → Nat → Blockchain → Prop
  | refl (bc : Blockchain) : MinedK H bc 0 bc
  | add {bc bc' : Blockchain} {k : Nat} (tx : Transaction) :
      MinedK H bc k bc' → MinedK H bc k (bc'.add_transaction tx)
  | mine {bc bc' bc'' : Blockchain} {k : Nat}
      (now : String) (clock : Nat → String) (fuel : Nat) (hsh : String) :
      MinedK H bc k bc' →
      bc'.mine_pending_transactions H now clock fuel = some (bc'', Except.ok hsh) →
      MinedK H bc (k + 1) bc''

/-- Adjacent-pair linkage relation used by the chain invariant: the
later block's stored parent hash is the recomputed hash of the
earlier block. -/
def chainLinkOK (H : List Nat → String) (prev b : Block) : Prop :=
  b.header.parent_hash = prev.calculate_hash H

/-- Adjacent-pair condition checked by `is_chain_valid`: linkage plus
the later block's difficulty target. -/
def chainStepOK (H : List Nat → String) (prev b : Block) : Prop :=
  b.header.parent_hash = prev.calculate_hash H ∧
  b.header.meets_difficulty_target H = true

/-- Block `b` with its stored parent hash redirected to `v` (the
tampering operation of the C4 scenario). -/
def Block.withParent (b : Block) (v : String) : Block :=
  { b with header := { b.header with parent_hash := v } }

/-- Degenerate digest function for concrete runs of the model: every
byte stream digests to the empty string, which has zero leading zero
characters and so meets exactly the difficulty-0 target. -/
def hashZero : List Nat → String := fun _ => ""

/-- Constant clock stream for concrete runs. -/
def clockZero : Nat → String := fun _ => "t"

/-- Signature-verifier stub that rejects every input. -/
def verifyNone : List Nat → List Nat → List Nat → Bool := fun _ _ _ => false

/-- Signature-verifier stub that accepts every input. -/
def verifyAll : List Nat → List Nat → List Nat → Bool := fun _ _ _ => true

/-- Concrete transaction fixture. -/
def txA : Transaction := ⟨"id1", "a", "b", 1, 2, 3, "t", "s1"⟩

/-- Fixture agreeing with `txA` on the six content fields but with a
different stored id and signature. -/
def txB : Transaction := ⟨"id2", "a", "b", 1, 2, 3, "t", "s2"⟩

/-- Fixture whose signature decodes to a single byte (valid hex, wrong
length). -/
def txShortSig : Transaction := ⟨"id", "a", "b", 1, 2, 3, "t", "ab"⟩

/-- Fixture whose signature decodes to exactly 64 zero bytes. -/
def txZeroSig : Transaction := ⟨"id", "a", "b", 1, 2, 3, "t", String.mk (List.replicate 128 '0')⟩

/-- Concrete transaction built through `Transaction::new`. -/
def txW : Transaction := Transaction.new hashZero "alice" "bob" 1000 1 "sig" "t1"

/-- Concrete genesis block at difficulty 0. -/
def genesisW : Block := Block.new hashZero 0 zeros64 [] 0 "t0"

/-- Ledger state right after a difficulty-0 construction. -/
def bcW0 : Blockchain := { chain := [genesisW], pending_transactions := [], difficulty := 0 }

/-- Ledger state after submitting `txW`. -/
def bcW1 : Blockchain := bcW0.add_transaction txW

/-- The block mined from `bcW1`'s pool. -/
def blockW : Block := Block.new hashZero 1 (genesisW.calculate_hash hashZero) [txW] 0 "t2"

/-- Ledger state after the successful mining call on `bcW1`. -/
def bcW2 : Blockchain := { chain := [genesisW, blockW], pending_transactions := [], difficulty := 0 }

/-- Hasher folds concatenate: folding `update` over a transaction list
appends the concatenation of the per-transaction id byte streams. -/
theorem foldl_update_data (txs : List Transaction) (acc : List Nat) :
    (txs.foldl (fun h tx => h.update (strBytes tx.txn_id)) (Hasher.mk acc)).data =
      acc ++ (txs.map (fun tx => strBytes tx.txn_id)).flatten := by
  induction txs generalizing acc with
  | nil => simp
  | cons tx rest ih =>
    rw [List.foldl_cons,
      show (Hasher.mk acc).update (strBytes tx.txn_id) =
        Hasher.mk (acc ++ strBytes tx.txn_id) from rfl, ih]
    simp [List.append_assoc]

/-- C6: a freshly created transaction has the fixed fee and its id is
the digest of exactly sender, recipient, amount, fee, nonce and
timestamp; `txn_id` and `signature` are not part of the hash input,
and `calculate_hash` is a function of those six fields alone, so two
transactions agreeing on them have identical hashes. -/
theorem txn_id_content_hash_spec :
    (∀ (H : List Nat → String) (f t : String) (a n : Nat) (sig now : String),
      (Transaction.new H f t a n sig now).fee = TRANSACTION_FEE) ∧
    (∀ (H : List Nat → String) (f t : String) (a n : Nat) (sig now : String),
      (Transaction.new H f t a n sig now).txn_id =
        H (strBytes f ++ strBytes t ++ u64le a ++ u64le TRANSACTION_FEE ++
          u64le n ++ strBytes now)) ∧
    (∀ (H : List Nat → String) (tx : Transaction) (id sig : String),
      (Transaction.mk id tx.«from» tx.«to» tx.amount tx.fee tx.nonce
        tx.timestamp sig).calculate_hash H = tx.calculate_hash H) ∧
    (∀ (H : List Nat → String) (tx1 tx2 : Transaction),
      tx1.«from» = tx2.«from» → tx1.«to» = tx2.«to» → tx1.amount = tx2.amount →
      tx1.fee = tx2.fee → tx1.nonce = tx2.nonce → tx1.timestamp = tx2.timestamp →
      tx1.calculate_hash H = tx2.calculate_hash H) := by
  refine ⟨fun H f t a n sig now => rfl, fun H f t a n sig now => ?_,
    fun H tx id sig => rfl, fun H tx1 tx2 h1 h2 h3 h4 h5 h6 => ?_⟩
  · simp [Transaction.new, Transaction.calculate_hash, Hasher.new, Hasher.update,
      Hasher.finalizeHex, List.append_assoc]
  · simp only [Transaction.calculate_hash, Hasher.new, Hasher.update, Hasher.finalizeHex]
    rw [h1, h2, h3, h4, h5, h6]

/-- Witness for C6: two concrete transactions differing only in stored
id and signature have the same content hash. -/
theorem txn_id_content_hash_spec_witness :
    txA.calculate_hash hashZero = txB.calculate_hash hashZero :=
  txn_id_content_hash_spec.2.2.2 hashZero txA txB rfl rfl rfl rfl rfl rfl

/-- C7: the merkle root is one digest of the concatenated transaction
ids in list order (no tree); for the empty list it is the fixed
64-character all-zero sentinel, produced without consulting the digest
function at all. -/
theorem merkle_root_concat_spec :
    (∀ H : List Nat → String,
      Block.calculate_merkle_root H [] = String.mk (List.replicate 64 '0')) ∧
    (∀ H H' : List Nat → String,
      Block.calculate_merkle_root H [] = Block.calculate_merkle_root H' []) ∧
    (∀ (H : List Nat → String) (txs : List Transaction), txs ≠ [] →
      Block.calculate_merkle_root H txs =
        H ((txs.map (fun tx => strBytes tx.txn_id)).flatten)) := by
  refine ⟨fun H => rfl, fun H H' => rfl, fun H txs hne => ?_⟩
  unfold Block.calculate_merkle_root
  rw [if_neg (by simpa using hne)]
  unfold Hasher.finalizeHex Hasher.new
  rw [foldl_update_data]
  simp

/-- Witness for C7: concrete nonempty list. -/
theorem merkle_root_concat_spec_witness :
    Block.calculate_merkle_root hashZero [txA] =
      hashZero (([txA].map (fun tx => strBytes tx.txn_id)).flatten) :=
  merkle_root_concat_spec.2.2 hashZero [txA] (by simp)

/-- C8: `verify_signature` propagates an error exactly when hex
decoding of the signature fails; a decoded signature of wrong length,
or a failing cryptographic verification, yields `Ok(false)`. -/
theorem verify_signature_error_spec :
    (∀ (V : List Nat → List Nat → List Nat → Bool) (pk : List Nat) (tx : Transaction),
      (∃ e, tx.verify_signature V pk = Except.error e) ↔
      (∃ e, hexDecode tx.signature = Except.error e)) ∧
    (∀ (V : List Nat → List Nat → List Nat → Bool) (pk : List Nat) (tx : Transaction)
      (bs : List Nat), hexDecode tx.signature = Except.ok bs → bs.length ≠ 64 →
      tx.verify_signature V pk = Except.ok false) ∧
    (∀ (V : List Nat → List Nat → List Nat → Bool) (pk : List Nat) (tx : Transaction)
      (bs : List Nat), hexDecode tx.signature = Except.ok bs → bs.length = 64 →
      V pk (strBytes tx.get_signing_message) bs = false →
      tx.verify_signature V pk = Except.ok false) := by
  refine ⟨fun V pk tx => ?_, fun V pk tx bs hdec hlen => ?_,
    fun V pk tx bs hdec hlen hv => ?_⟩
  · unfold Transaction.verify_signature
    cases h : hexDecode tx.signature with
    | error e => simp
    | ok bs =>
      by_cases hl : bs.length = 64
      · simp [hl]
      · simp [hl]
  · unfold Transaction.verify_signature
    rw [hdec]
    simp [hlen]
  · unfold Transaction.verify_signature
    rw [hdec]
    simp [hlen, hv]

/-- Witness for C8: a well-formed but 1-byte signature is `Ok(false)`
even under an always-accepting verifier, and a 64-byte signature the
verifier rejects is `Ok(false)` as well. -/
theorem verify_signature_error_spec_witness :
    txShortSig.verify_signature verifyAll [] = Except.ok false ∧
    txZeroSig.verify_signature verifyNone [] = Except.ok false :=
  ⟨verify_signature_error_spec.2.1 verifyAll [] txShortSig [171] rfl (by decide),
   verify_signature_error_spec.2.2 verifyNone [] txZeroSig (List.replicate 64 0)
     rfl (by decide) rfl⟩

/-- Whenever the mining loop returns, the returned block satisfies its
difficulty target, the returned digest is that block's recomputed
hash, and every header field other than nonce and timestamp — as well
as the transaction list and the cached count — is unchanged. -/
theorem mine_block_some (H : List Nat → String) (clock : Nat → String) (fuel : Nat) :
    ∀ (t : Nat) (b b' : Block) (hsh : String),
      Block.mine_block H clock t fuel b = some (b', hsh) →
      b'.header.meets_difficulty_target H = true ∧
      hsh = b'.calculate_hash H ∧
      b'.header.block_height = b.header.block_height ∧
      b'.header.parent_hash = b.header.parent_hash ∧
      b'.header.merkle_root = b.header.merkle_root ∧
      b'.header.difficulty = b.header.difficulty ∧
      b'.transaction_count = b.transaction_count ∧
      b'.transactions = b.transactions := by
  induction fuel with
  | zero =>
    intro t b b' hsh h
    simp [Block.mine_block] at h
  | succ n ih =>
    intro t b b' hsh h
    rw [Block.mine_block] at h
    split at h
    · rename_i hm
      simp only [Option.some.injEq, Prod.mk.injEq] at h
      obtain ⟨rfl, rfl⟩ := h
      exact ⟨hm, rfl, rfl, rfl, rfl, rfl, rfl, rfl⟩
    · split at h
      · have spec := ih (t + 1) _ _ _ h
        exact spec
      · have spec := ih t _ _ _ h
        exact spec

/-- On return from the mining loop, the digest has at least as many
leading zero characters as the block's difficulty (which the search
never changes). -/
theorem mine_block_leading_zeros (H : List Nat → String) (clock : Nat → String)
    (fuel t : Nat) (b b' : Block) (hsh : String)
    (h : Block.mine_block H clock t fuel b = some (b', hsh)) :
    b.header.difficulty ≤ leadingZeroCount hsh := by
  obtain ⟨hm, rfl, _, _, _, hd, _, _⟩ := mine_block_some H clock fuel t b b' hsh h
  rw [← hd]
  exact of_decide_eq_true hm

/-- One step of the nonce-exhaustion branch: a block that misses its
target with the nonce at `u64::MAX` continues the search with the
timestamp refreshed to the next clock sample and the nonce reset
to 0. -/
theorem mine_block_restart (H : List Nat → String) (clock : Nat → String)
    (t fuel : Nat) (b : Block)
    (hm : b.header.meets_difficulty_target H = false) (hn : b.header.nonce = U64MAX) :
    Block.mine_block H clock t (fuel + 1) b =
      Block.mine_block H clock (t + 1) fuel
        { b with header := { b.header with timestamp := clock t, nonce := 0 } } := by
  rw [Block.mine_block]
  rw [if_neg (by simp [hm]), if_pos hn]

/-- Shape of a successful construction: one mined genesis block with
all-zero parent, empty transaction list and empty pool. -/
theorem blockchain_new_spec (H : List Nat → String) (now : String) (clock : Nat → String)
    (fuel difficulty : Nat) (bc : Blockchain)
    (h : Blockchain.new H now clock fuel difficulty = some bc) :
    ∃ g : Block,
      bc = { chain := [g], pending_transactions := [], difficulty := difficulty } ∧
      g.header.meets_difficulty_target H = true ∧
      g.header.block_height = 0 ∧
      g.header.parent_hash = zeros64 ∧
      g.transactions = [] ∧
      g.transaction_count = 0 := by
  unfold Blockchain.new at h
  split at h
  · exact absurd h (by simp)
  · rename_i mined hsh heq
    simp only [Option.some.injEq] at h
    subst h
    obtain ⟨m1, _, m3, m4, _, _, m7, m8⟩ := mine_block_some H clock fuel 0 _ mined hsh heq
    exact ⟨mined, rfl, m1, m3, m4, m8, m7⟩

/-- Case analysis of a returning `mine_pending_transactions` call:
either an error that leaves the state untouched (empty pool, or the
unconstructible empty chain), or a successful append of exactly one
freshly mined block built from the whole pool. -/
theorem mine_pending_spec (H : List Nat → String) (now : String) (clock : Nat → String)
    (fuel : Nat) (bc bc' : Blockchain) (r : Except String String)
    (h : bc.mine_pending_transactions H now clock fuel = some (bc', r)) :
    (bc' = bc ∧ bc.pending_transactions = [] ∧
      r = Except.error "No pending transactions to mine") ∨
    (bc' = bc ∧ bc.pending_transactions ≠ [] ∧ bc.chain = [] ∧
      r = Except.error "No blocks in chain") ∨
    (∃ latest mined hsh,
      bc.pending_transactions ≠ [] ∧
      bc.chain.getLast? = some latest ∧
      r = Except.ok hsh ∧
      bc' = { chain := bc.chain ++ [mined], pending_transactions := [],
              difficulty := bc.difficulty } ∧
      mined.header.meets_difficulty_target H = true ∧
      hsh = mined.calculate_hash H ∧
      mined.header.block_height = latest.header.block_height + 1 ∧
      mined.header.parent_hash = latest.calculate_hash H ∧
      mined.header.merkle_root = Block.calculate_merkle_root H bc.pending_transactions ∧
      mined.header.difficulty = bc.difficulty ∧
      mined.transaction_count = bc.pending_transactions.length % U32MOD ∧
      mined.transactions = bc.pending_transactions) := by
  unfold Blockchain.mine_pending_transactions at h
  split at h
  · rename_i hempty
    left
    simp only [Option.some.injEq, Prod.mk.injEq] at h
    obtain ⟨rfl, rfl⟩ := h
    exact ⟨rfl, List.isEmpty_iff.mp hempty, rfl⟩
  · rename_i hempty
    rw [List.isEmpty_iff] at hempty
    split at h
    · rename_i hlast
      right; left
      simp only [Option.some.injEq, Prod.mk.injEq] at h
      obtain ⟨rfl, rfl⟩ := h
      exact ⟨rfl, hempty,
        List.getLast?_eq_none_iff.mp hlast, rfl⟩
    · rename_i latest hlast
      right; right
      split at h
      · exact absurd h (by simp)
      · rename_i mined hsh heq
        simp only [Option.some.injEq, Prod.mk.injEq] at h
        obtain ⟨rfl, rfl⟩ := h
        obtain ⟨m1, m2, m3, m4, m5, m6, m7, m8⟩ := mine_block_some H clock fuel 0 _ mined hsh heq
        exact ⟨latest, mined, hsh, hempty, hlast, rfl, rfl, m1, m2, m3, m4, m5, m6, m7, m8⟩

/-- Chain invariant maintained by the public API: nonempty chain,
parent-hash linkage of adjacent blocks, difficulty satisfaction of
every block, and correctness (mod `2^32`) of the cached counts. -/
theorem reachable_chain_invariant (H : List Nat → String) {bc : Blockchain}
    (hr : Reachable H bc) :
    bc.chain ≠ [] ∧ List.Chain' (chainLinkOK H) bc.chain ∧
    (∀ b ∈ bc.chain, b.header.meets_difficulty_target H = true) ∧
    (∀ b ∈ bc.chain, b.transaction_count = b.transactions.length % U32MOD) := by
  induction hr with
  | new now clock fuel d bc hnew =>
    obtain ⟨g, rfl, hg1, _, _, htx, hcnt⟩ := blockchain_new_spec H now clock fuel d bc hnew
    refine ⟨by simp, List.chain'_singleton g, ?_, ?_⟩
    · intro b hb
      simp only [List.mem_singleton] at hb
      subst hb; exact hg1
    · intro b hb
      simp only [List.mem_singleton] at hb
      subst hb
      rw [hcnt, htx]
      rfl
  | add tx hr ih => simpa [Blockchain.add_transaction] using ih
  | mine now clock fuel hr hmine ih =>
    rcases mine_pending_spec H now clock fuel _ _ _ hmine with
      ⟨rfl, _, _⟩ | ⟨rfl, _, _, _⟩ |
      ⟨latest, mined, hsh, _, hlast, _, rfl, hmeets, _, _, hparent, _, _, hcnt, htxs⟩
    · exact ih
    · exact ih
    · obtain ⟨_, ih2, ih3, ih4⟩ := ih
      refine ⟨by simp, ?_, ?_, ?_⟩
      · rw [List.chain'_append]
        refine ⟨ih2, List.chain'_singleton mined, ?_⟩
        intro x hx y hy
        simp only [List.head?_cons, Option.mem_def, Option.some.injEq] at hy
        subst hy
        rw [hlast] at hx
        simp only [Option.mem_def, Option.some.injEq] at hx
        subst hx
        exact hparent
      · intro b hb
        rcases List.mem_append.mp hb with hb | hb
        · exact ih3 b hb
        · simp only [List.mem_singleton] at hb
          subst hb; exact hmeets
      · intro b hb
        rcases List.mem_append.mp hb with hb | hb
        · exact ih4 b hb
        · simp only [List.mem_singleton] at hb
          subst hb
          rw [hcnt, htxs]

/-- Each `Ok`-returning mining call grows the chain by exactly one
block; submissions leave it unchanged. -/
theorem minedK_length (H : List Nat → String) {bc0 : Blockchain} {k : Nat}
    {bc' : Blockchain} (hm : MinedK H bc0 k bc') :
    bc'.chain.length = bc0.chain.length + k := by
  induction hm with
  | refl => rfl
  | add tx hm ih => simpa [Blockchain.add_transaction] using ih
  | mine now clock fuel hsh hm hmine ih =>
    rcases mine_pending_spec H now clock fuel _ _ _ hmine with
      ⟨_, _, habs⟩ | ⟨_, _, _, habs⟩ | ⟨_, mined, _, _, _, _, rfl, _⟩
    · simp at habs
    · simp at habs
    · simp only [List.length_append, List.length_singleton, ih]
      omega

/-- The `is_chain_valid` walk from a head block is exactly the
adjacent-pair condition `chainStepOK` along the whole chain. -/
theorem chainValidFrom_iff (H : List Nat → String) (prev : Block) (l : List Block) :
    chainValidFrom H prev l = true ↔ List.Chain' (chainStepOK H) (prev :: l) := by
  induction l generalizing prev with
  | nil => simp [chainValidFrom]
  | cons b rest ih =>
    rw [List.chain'_cons, ← ih b]
    rw [show chainValidFrom H prev (b :: rest) =
      (if b.header.parent_hash = prev.calculate_hash H then
        (if b.header.meets_difficulty_target H then chainValidFrom H b rest else false)
      else false) from rfl]
    split_ifs with hp hm
    · simp [chainStepOK, hp, hm]
    · simp [chainStepOK, hp, hm]
    · simp [chainStepOK, hp]

/-- Whole-chain version of `chainValidFrom_iff`. -/
theorem is_chain_valid_iff_chain (H : List Nat → String) (bc : Blockchain) :
    bc.is_chain_valid H = true ↔ List.Chain' (chainStepOK H) bc.chain := by
  cases hc : bc.chain with
  | nil => simp [Blockchain.is_chain_valid, hc]
  | cons b rest =>
    simp only [Blockchain.is_chain_valid, hc]
    exact chainValidFrom_iff H b rest

/-- Index form: `is_chain_valid` holds exactly when every block after
the first links to its predecessor's recomputed hash and meets its own
difficulty target. -/
theorem is_chain_valid_index_iff (H : List Nat → String) (bc : Blockchain) :
    bc.is_chain_valid H = true ↔
    ∀ (i : Nat) (h : i + 1 < bc.chain.length),
      (bc.chain.get ⟨i + 1, h⟩).header.parent_hash =
        (bc.chain.get ⟨i, by omega⟩).calculate_hash H ∧
      (bc.chain.get ⟨i + 1, h⟩).header.meets_difficulty_target H = true := by
  rw [is_chain_valid_iff_chain, List.chain'_iff_get]
  constructor
  · intro hall i hi
    exact hall i (by omega)
  · intro hall i hi
    exact hall i (by omega)

/-- The `is_chain_valid` walk reads only the block headers: the stored
transaction lists (and hence their signatures and any merkle-root
consistency) never enter into it. -/
theorem chainValidFrom_headers (H : List Nat → String) (l1 : List Block) :
    ∀ (p1 p2 : Block) (l2 : List Block), p1.header = p2.header →
      l1.map Block.header = l2.map Block.header →
      chainValidFrom H p1 l1 = chainValidFrom H p2 l2 := by
  induction l1 with
  | nil =>
    intro p1 p2 l2 hp hmap
    have : l2 = [] := by simpa using hmap.symm
    subst this; rfl
  | cons b1 r1 ih =>
    intro p1 p2 l2 hp hmap
    cases l2 with
    | nil => simp at hmap
    | cons b2 r2 =>
      simp only [List.map_cons, List.cons.injEq] at hmap
      obtain ⟨hb, hr⟩ := hmap
      have h1 : (b1.header.parent_hash = p1.calculate_hash H) =
          (b2.header.parent_hash = p2.calculate_hash H) := by
        simp only [Block.calculate_hash, hp, hb]
      have h2 : b1.header.meets_difficulty_target H =
          b2.header.meets_difficulty_target H := by
        rw [hb]
      have h3 := ih b1 b2 r2 hb hr
      rw [show chainValidFrom H p1 (b1 :: r1) =
        (if b1.header.parent_hash = p1.calculate_hash H then
          (if b1.header.meets_difficulty_target H then chainValidFrom H b1 r1 else false)
        else false) from rfl]
      rw [show chainValidFrom H p2 (b2 :: r2) =
        (if b2.header.parent_hash = p2.calculate_hash H then
          (if b2.header.meets_difficulty_target H then chainValidFrom H b2 r2 else false)
        else false) from rfl]
      rw [h3]
      simp only [h1, h2]

/-- C1: in every reachable ledger state the chain is nonempty, each
block after the first stores as `parent_hash` the recomputed hash of
its predecessor's header, and every block meets its own header's
difficulty target. -/
theorem reachable_chain_linked_and_sealed (H : List Nat → String) (bc : Blockchain)
    (hr : Reachable H bc) :
    bc.chain ≠ [] ∧
    (∀ (i : Nat) (h : i + 1 < bc.chain.length),
      (bc.chain.get ⟨i + 1, h⟩).header.parent_hash =
        ((bc.chain.get ⟨i, by omega⟩).header.calculate_hash H)) ∧
    (∀ b ∈ bc.chain, b.header.meets_difficulty_target H = true) := by
  obtain ⟨h1, h2, h3, _⟩ := reachable_chain_invariant H hr
  refine ⟨h1, ?_, h3⟩
  intro i hi
  exact List.chain'_iff_get.mp h2 i (by omega)

/-- Witness for C1: the two-block ledger reached by construction at
difficulty 0, one submission and one successful mining call. -/
theorem reachable_chain_linked_and_sealed_witness :
    bcW2.chain ≠ [] ∧
    (∀ (i : Nat) (h : i + 1 < bcW2.chain.length),
      (bcW2.chain.get ⟨i + 1, h⟩).header.parent_hash =
        ((bcW2.chain.get ⟨i, by omega⟩).header.calculate_hash hashZero)) ∧
    (∀ b ∈ bcW2.chain, b.header.meets_difficulty_target hashZero = true) :=
  reachable_chain_linked_and_sealed hashZero bcW2
    (Reachable.mine "t2" clockZero 1
      (Reachable.add txW (Reachable.new "t0" clockZero 1 0 bcW0 rfl)) rfl)

/-- C2: with a nonempty pool (on the never-empty chain of any
constructible ledger), a returning `mine_pending_transactions` call
returns `Ok`, appends exactly one block carrying the incremented
height, the previous last block's recomputed header hash and the
entire pending set, and empties the pool; and starting from a fresh
ledger, after `k` successful mining calls the chain length is
`1 + k`. -/
theorem mine_pending_appends_one_block :
    (∀ (H : List Nat → String) (now : String) (clock : Nat → String) (fuel : Nat)
      (bc bc' : Blockchain) (r : Except String String),
      bc.pending_transactions ≠ [] → bc.chain ≠ [] →
      bc.mine_pending_transactions H now clock fuel = some (bc', r) →
      ∃ latest mined hsh,
        bc.chain.getLast? = some latest ∧
        r = Except.ok hsh ∧
        bc'.chain = bc.chain ++ [mined] ∧
        bc'.pending_transactions = [] ∧
        mined.header.block_height = latest.header.block_height + 1 ∧
        mined.header.parent_hash = latest.calculate_hash H ∧
        mined.transactions = bc.pending_transactions) ∧
    (∀ (H : List Nat → String) (now : String) (clock : Nat → String)
      (fuel difficulty : Nat) (bc0 : Blockchain) (k : Nat) (bc' : Blockchain),
      Blockchain.new H now clock fuel difficulty = some bc0 →
      MinedK H bc0 k bc' → bc'.chain.length = 1 + k) := by
  constructor
  · intro H now clock fuel bc bc' r hpend hchain h
    rcases mine_pending_spec H now clock fuel bc bc' r h with
      ⟨_, hp, _⟩ | ⟨_, _, hnil, _⟩ |
      ⟨latest, mined, hsh, _, hlast, hr, rfl, _, _, hheight, hparent, _, _, _, htxs⟩
    · exact absurd hp hpend
    · exact absurd hnil hchain
    · exact ⟨latest, mined, hsh, hlast, hr, rfl, rfl, hheight, hparent, htxs⟩
  · intro H now clock fuel d bc0 k bc' hnew hm
    obtain ⟨g, rfl, _⟩ := blockchain_new_spec H now clock fuel d bc0 hnew
    have hlen := minedK_length H hm
    simpa [Nat.add_comm] using hlen

/-- Witness for C2: the concrete successful mining call on `bcW1`
appends `blockW`, and the one-successful-call trace from the fresh
ledger has chain length 2. -/
theorem mine_pending_appends_one_block_witness :
    (∃ latest mined hsh,
      bcW1.chain.getLast? = some latest ∧
      (Except.ok "" : Except String String) = Except.ok hsh ∧
      bcW2.chain = bcW1.chain ++ [mined] ∧
      bcW2.pending_transactions = [] ∧
      mined.header.block_height = latest.header.block_height + 1 ∧
      mined.header.parent_hash = latest.calculate_hash hashZero ∧
      mined.transactions = bcW1.pending_transactions) ∧
    bcW2.chain.length = 1 + 1 :=
  ⟨mine_pending_appends_one_block.1 hashZero "t2" clockZero 1 bcW1 bcW2 (Except.ok "")
      (by simp [bcW1, bcW0, Blockchain.add_transaction])
      (by simp [bcW1, bcW0, Blockchain.add_transaction]) rfl,
   mine_pending_appends_one_block.2 hashZero "t0" clockZero 1 0 bcW0 1 bcW2 rfl
      (MinedK.mine "t2" clockZero 1 "" (MinedK.add txW (MinedK.refl bcW0)) rfl)⟩

/-- C3: on a ledger with the (always) nonempty chain, mining with an
empty pool returns exactly the empty-pool error and leaves the whole
state — chain and pool — untouched; a returning call yields an error
if and only if the pool was empty at the call. -/
theorem mine_pending_empty_pool_error (H : List Nat → String) (now : String)
    (clock : Nat → String) (fuel : Nat) (bc : Blockchain) (hchain : bc.chain ≠ []) :
    (bc.pending_transactions = [] →
      bc.mine_pending_transactions H now clock fuel =
        some (bc, Except.error "No pending transactions to mine")) ∧
    (∀ bc' r, bc.mine_pending_transactions H now clock fuel = some (bc', r) →
      ((∃ e, r = Except.error e) ↔ bc.pending_transactions = [])) := by
  constructor
  · intro hpend
    unfold Blockchain.mine_pending_transactions
    rw [if_pos (by simp [hpend])]
  · intro bc' r h
    rcases mine_pending_spec H now clock fuel bc bc' r h with
      ⟨_, hp, rfl⟩ | ⟨_, _, hnil, _⟩ |
      ⟨_, _, hsh, hpend, _, rfl, _⟩
    · exact iff_of_true ⟨_, rfl⟩ hp
    · exact absurd hnil hchain
    · refine iff_of_false ?_ hpend
      rintro ⟨e, he⟩
      simp at he

/-- Witness for C3: the freshly constructed ledger with its empty pool
returns the empty-pool error unchanged. -/
theorem mine_pending_empty_pool_error_witness :
    bcW0.mine_pending_transactions hashZero "t3" clockZero 1 =
      some (bcW0, Except.error "No pending transactions to mine") :=
  (mine_pending_empty_pool_error hashZero "t3" clockZero 1 bcW0
    (by simp [bcW0])).1 rfl

/-- C4: `is_chain_valid` is true exactly when every block after the
first links to its predecessor's recomputed hash and meets its own
difficulty target; its verdict is a function of the headers alone (so
stored transactions, their signatures, and merkle-root consistency
never enter into it), and redirecting any chained block's
`parent_hash` to any value other than the previous block's hash makes
it false. -/
theorem is_chain_valid_structural_spec :
    (∀ (H : List Nat → String) (bc : Blockchain),
      bc.is_chain_valid H = true ↔
      ∀ (i : Nat) (h : i + 1 < bc.chain.length),
        (bc.chain.get ⟨i + 1, h⟩).header.parent_hash =
          (bc.chain.get ⟨i, by omega⟩).calculate_hash H ∧
        (bc.chain.get ⟨i + 1, h⟩).header.meets_difficulty_target H = true) ∧
    (∀ (H : List Nat → String) (bc1 bc2 : Blockchain),
      bc1.chain.map Block.header = bc2.chain.map Block.header →
      bc1.is_chain_valid H = bc2.is_chain_valid H) ∧
    (∀ (H : List Nat → String) (bc : Blockchain) (i : Nat) (h : i + 1 < bc.chain.length)
      (v : String), v ≠ (bc.chain.get ⟨i, by omega⟩).calculate_hash H →
      Blockchain.is_chain_valid H
        { bc with chain :=
            bc.chain.set (i + 1) ((bc.chain.get ⟨i + 1, h⟩).withParent v) } =
        false) := by
  refine ⟨fun H bc => is_chain_valid_index_iff H bc, fun H bc1 bc2 hmap => ?_,
    fun H bc i hi v hv => ?_⟩
  · unfold Blockchain.is_chain_valid
    cases h1 : bc1.chain with
    | nil =>
      rw [h1] at hmap
      have : bc2.chain = [] := by simpa using hmap.symm
      rw [this]
    | cons b1 r1 =>
      rw [h1] at hmap
      cases h2 : bc2.chain with
      | nil => rw [h2] at hmap; simp at hmap
      | cons b2 r2 =>
        rw [h2] at hmap
        simp only [List.map_cons, List.cons.injEq] at hmap
        exact chainValidFrom_headers H r1 b1 b2 r2 hmap.1 hmap.2
  · cases hb : Blockchain.is_chain_valid H
      { bc with chain :=
          bc.chain.set (i + 1) ((bc.chain.get ⟨i + 1, hi⟩).withParent v) } with
    | false => rfl
    | true =>
      exfalso
      have hi' : i + 1 <
          (bc.chain.set (i + 1) ((bc.chain.get ⟨i + 1, hi⟩).withParent v)).length := by
        simpa using hi
      have hcond :
          ((bc.chain.set (i + 1)
            ((bc.chain.get ⟨i + 1, hi⟩).withParent v)).get ⟨i + 1, hi'⟩).header.parent_hash =
          ((bc.chain.set (i + 1)
            ((bc.chain.get ⟨i + 1, hi⟩).withParent v)).get ⟨i, by omega⟩).calculate_hash H :=
        ((is_chain_valid_index_iff H _).mp hb i hi').1
      rw [show ((bc.chain.set (i + 1)
            ((bc.chain.get ⟨i + 1, hi⟩).withParent v)).get ⟨i + 1, hi'⟩) =
          (bc.chain.get ⟨i + 1, hi⟩).withParent v from List.getElem_set_self hi'] at hcond
      rw [show ((bc.chain.set (i + 1)
            ((bc.chain.get ⟨i + 1, hi⟩).withParent v)).get ⟨i, by omega⟩) =
          bc.chain.get ⟨i, by omega⟩ from List.getElem_set_ne (by omega) _] at hcond
      exact hv (by simpa [Block.withParent] using hcond)

/-- Witness for C4: the index form on the two-block ledger `bcW2`, the
header-only dependence applied to `bcW2` against itself with its
transaction lists emptied, and tampering with `bcW2`'s second block. -/
theorem is_chain_valid_structural_spec_witness :
    (bcW2.is_chain_valid hashZero = true ↔
      ∀ (i : Nat) (h : i + 1 < bcW2.chain.length),
        (bcW2.chain.get ⟨i + 1, h⟩).header.parent_hash =
          (bcW2.chain.get ⟨i, by omega⟩).calculate_hash hashZero ∧
        (bcW2.chain.get ⟨i + 1, h⟩).header.meets_difficulty_target hashZero = true) ∧
    (bcW2.is_chain_valid hashZero =
      Blockchain.is_chain_valid hashZero
        { chain := bcW2.chain.map (fun b => { b with transactions := [] }),
          pending_transactions := [], difficulty := 0 }) ∧
    Blockchain.is_chain_valid hashZero
      { bcW2 with chain :=
          bcW2.chain.set 1 ((bcW2.chain.get ⟨1, by simp [bcW2]⟩).withParent "x") } =
      false :=
  ⟨is_chain_valid_structural_spec.1 hashZero bcW2,
   is_chain_valid_structural_spec.2.1 hashZero bcW2 _ (by simp [bcW2]),
   is_chain_valid_structural_spec.2.2 hashZero bcW2 0 (by simp [bcW2]) "x" (by decide)⟩

/-- The cached count written by `Block::new` is the truncating cast of
the list length. -/
theorem block_new_count (H : List Nat → String) (height : Nat) (parent : String)
    (txs : List Transaction) (d : Nat) (now : String) :
    (Block.new H height parent txs d now).transaction_count = txs.length % U32MOD := rfl

/-- C9 counterexample: a single `Block::new` call handed `2^32`
transactions caches a `transaction_count` of 0 — the `len() as u32`
cast truncates — so the count does not equal the list length. -/
theorem transaction_count_truncation :
    (Block.new hashZero 1 "parent" (List.replicate U32MOD txA) 0 "t").transaction_count ≠
      (List.replicate U32MOD txA).length := by
  rw [block_new_count, List.length_replicate, Nat.mod_self, U32MOD]
  norm_num

/-- C9 amended: the cached count equals the transaction list length
reduced modulo `2^32`; in particular the two agree for every list
shorter than `2^32` transactions, and for every block of every
reachable ledger state. -/
theorem transaction_count_mod_spec :
    (∀ (H : List Nat → String) (height : Nat) (parent : String) (txs : List Transaction)
      (d : Nat) (now : String),
      (Block.new H height parent txs d now).transaction_count = txs.length % U32MOD) ∧
    (∀ (H : List Nat → String) (height : Nat) (parent : String) (txs : List Transaction)
      (d : Nat) (now : String), txs.length < U32MOD →
      (Block.new H height parent txs d now).transaction_count = txs.length) ∧
    (∀ (H : List Nat → String) (bc : Blockchain), Reachable H bc →
      ∀ b ∈ bc.chain, b.transaction_count = b.transactions.length % U32MOD) := by
  refine ⟨block_new_count,
    fun H height parent txs d now hlt => ?_,
    fun H bc hr => (reachable_chain_invariant H hr).2.2.2⟩
  rw [block_new_count]
  exact Nat.mod_eq_of_lt hlt

/-- Witness for C9 (amended): a one-transaction block caches count 1,
and the reachable two-block ledger satisfies the modular count
invariant. -/
theorem transaction_count_mod_spec_witness :
    (Block.new hashZero 1 "parent" [txA] 0 "t").transaction_count = [txA].length ∧
    (∀ b ∈ bcW2.chain, b.transaction_count = b.transactions.length % U32MOD) :=
  ⟨transaction_count_mod_spec.2.1 hashZero 1 "parent" [txA] 0 "t" (by decide),
   transaction_count_mod_spec.2.2 hashZero bcW2
     (Reachable.mine "t2" clockZero 1
       (Reachable.add txW (Reachable.new "t0" clockZero 1 0 bcW0 rfl)) rfl)⟩

/-- C10 evidence: rendering through `impl Display for Transaction` a
transaction whose sender is shorter than 8 bytes panics (the byte
slice of `from` is out of range), although `Transaction::new` accepts
the empty sender without validation; `none` is the panic. -/
theorem display_short_sender_panics (H : List Nat → String) (now : String) :
    (Transaction.new H "" "" 1000 1 "" now).display = none := by
  unfold Transaction.display
  cases h : rustStrTake (Transaction.new H "" "" 1000 1 "" now).txn_id 8 <;>
    simp [show (Transaction.new H "" "" 1000 1 "" now).«from» = "" from rfl,
      show rustStrTake "" 8 = none from by decide]

end BFS
